import Mathlib

/-!
Verification of the `chunkle` chunking algorithm (`src/chunkle/__init__.py`).

The source is a single-pass generator `chunk(content, *, lines_per_chunk,
tokens_per_chunk, encoding)` over the characters of `content`.  We embed it
as a pure state-transition function over lists of characters.  The token
counter (`len(enc.encode(ch))` in the source) is modelled as an arbitrary
function `tc : Char → Nat`; the characters actually handed to the counter
are logged in the `calls` field of the state.
-/

set_option maxHeartbeats 1000000

namespace Chunkle

/-- The module-level constant `YIELD_LATER_CHARS = set("。？！!?;；:：,，、…")`:
half- and full-width punctuation that is never allowed to start a chunk. -/
def YIELD_LATER_CHARS : List Char :=
  ['。', '？', '！', '!', '?', ';', '；', ':', '：', ',', '，', '、', '…']

/-- Python's `str.isspace()` on a single character: true exactly for the
Unicode whitespace characters (ASCII whitespace, the C1 separators,
NEL, NBSP and the Zs/Zl/Zp space separators). -/
def pyIsSpace (c : Char) : Bool :=
  [' ', '\t', '\n', '\u000B', '\u000C', '\r',
   '\u001C', '\u001D', '\u001E', '\u001F', '\u0085', ' ',
   ' ', ' ', ' ', ' ', ' ', ' ', ' ',
   ' ', ' ', ' ', ' ', ' ',
   ' ', ' ', ' ', ' ', '　'].contains c

/-- The absorption test of the source: `ch.isspace() or ch in YIELD_LATER_CHARS`.
A character is a *meaning character* iff it does not satisfy this. -/
def NonMeaning (c : Char) : Prop :=
  pyIsSpace c = true ∨ c ∈ YIELD_LATER_CHARS

instance (c : Char) : Decidable (NonMeaning c) := by
  unfold NonMeaning; infer_instance

/-- The mutable state of the scan loop: `buf`, `line_count`, `token_count`,
`prev_chunk` from the source, plus `out` (the chunks yielded so far, in
order) and `calls` (the characters passed to the token counter, in order). -/
structure St where
  buf : List Char
  line_count : Nat
  token_count : Nat
  prev_chunk : Option (List Char)
  out : List (List Char)
  calls : List Char
deriving Repr, DecidableEq

/-- `_flush_current`: move the current buffer to the completed chunk
(no-op when the buffer is empty). -/
def flushCurrent (s : St) : St :=
  if s.buf = [] then s
  else { s with prev_chunk := some s.buf, buf := [], line_count := 0, token_count := 0 }

/-- The part of one loop iteration after the pending-absorption step:
paragraph-break handling, accumulation, and the safe-flush check.
`prevc` is `content[i-1]` (`none` at index 0). -/
def stepB (tc : Char → Nat) (lpc tpc : Nat) (prevc : Option Char) (ch : Char)
    (s : St) : St :=
  if ch = '\n' ∧ prevc = some '\n' then
    flushCurrent s
  else
    let lc := if ch = '\n' then s.line_count + 1 else s.line_count
    let tk := s.token_count + tc ch
    let s1 : St := { s with buf := s.buf ++ [ch], line_count := lc, token_count := tk,
                            calls := s.calls ++ [ch] }
    if lpc ≤ lc ∧ tpc ≤ tk ∧ (ch = '\n' ∨ ch ∈ YIELD_LATER_CHARS) then
      flushCurrent s1
    else
      s1

/-- One full loop iteration of the source for character `ch`, including the
pending-absorption step. -/
def step (tc : Char → Nat) (lpc tpc : Nat) (prevc : Option Char) (ch : Char)
    (s : St) : St :=
  match s.prev_chunk with
  | some p =>
    if s.buf = [] then
      if NonMeaning ch then
        { s with prev_chunk := some (p ++ [ch]) }
      else
        stepB tc lpc tpc prevc ch { s with out := s.out ++ [p], prev_chunk := none }
    else
      stepB tc lpc tpc prevc ch s
  | none => stepB tc lpc tpc prevc ch s

/-- The `while i < n` loop, threading the previous character. -/
def chunkLoop (tc : Char → Nat) (lpc tpc : Nat) :
    Option Char → List Char → St → St
  | _, [], s => s
  | prevc, ch :: rest, s =>
    chunkLoop tc lpc tpc (some ch) rest (step tc lpc tpc prevc ch s)

/-- The post-loop emission: `if buf: yield ... elif prev_chunk is not None: yield prev_chunk`. -/
def finish (s : St) : List (List Char) :=
  if s.buf = [] then
    match s.prev_chunk with
    | some p => s.out ++ [p]
    | none => s.out
  else
    match s.prev_chunk with
    | some p => s.out ++ [p ++ s.buf]
    | none => s.out ++ [s.buf]

/-- Initial state of a scan. -/
def initSt : St := ⟨[], 0, 0, none, [], []⟩

/-- Run the scan loop over the whole input. -/
def chunkRun (tc : Char → Nat) (lpc tpc : Nat) (content : List Char) : St :=
  chunkLoop tc lpc tpc none content initSt

/-- `chunk(content, lines_per_chunk, tokens_per_chunk, encoding)`: the full
list of yielded chunks, in emission order. -/
def chunk (tc : Char → Nat) (lpc tpc : Nat) (content : List Char) :
    List (List Char) :=
  if content = [] then [] else finish (chunkRun tc lpc tpc content)

/-- The characters passed to the token counter during a run, in call order
(each call of the source receives exactly one character). -/
def chunkCalls (tc : Char → Nat) (lpc tpc : Nat) (content : List Char) : List Char :=
  (chunkRun tc lpc tpc content).calls

/-- The token count of a string, summed per character via the counter. -/
def tokSum (tc : Char → Nat) (l : List Char) : Nat := (l.map tc).sum

/-- Number of newline characters in a string. -/
def countNl : List Char → Nat
  | [] => 0
  | c :: r => (if c = '\n' then 1 else 0) + countNl r

/-- The input has no blank line: no two consecutive newline characters. -/
def NoBlankLines (l : List Char) : Prop :=
  l.Chain' (fun a b => ¬(a = '\n' ∧ b = '\n'))

/-- `Keeps xs ys` : `ys` is `xs` with some subset of its blank-line newlines
(newline characters immediately preceded by a newline) deleted, and nothing
else dropped or duplicated. -/
inductive Keeps : List Char → List Char → Prop
  | nil : Keeps [] []
  | keep (c : Char) {xs ys : List Char} : Keeps xs ys → Keeps (xs ++ [c]) (ys ++ [c])
  | drop {xs ys : List Char} : xs.getLast? = some '\n' → Keeps xs ys →
      Keeps (xs ++ ['\n']) ys

/-- Every character of `l` is a meaning character, or `l` is empty, as seen
from the front: the head, when present, is a meaning character. -/
def headMeaning (l : List Char) : Prop :=
  ∀ c, l.head? = some c → ¬ NonMeaning c

/-- The last character of `l`, when present, is a non-meaning character. -/
def lastNonMeaning (l : List Char) : Prop :=
  ∀ c, l.getLast? = some c → NonMeaning c

/-- The concatenation of everything the scan holds: emitted output, pending
completed chunk, current buffer. -/
def concatSt (s : St) : List Char :=
  s.out.flatten ++ s.prev_chunk.getD [] ++ s.buf

theorem countNl_append (l1 l2 : List Char) :
    countNl (l1 ++ l2) = countNl l1 + countNl l2 := by
  induction l1 with
  | nil => simp [countNl]
  | cons c r ih => simp [countNl, ih]; omega

theorem countNl_concat (l : List Char) (c : Char) :
    countNl (l ++ [c]) = countNl l + (if c = '\n' then 1 else 0) := by
  rw [countNl_append]; simp [countNl]

theorem tokSum_append (tc : Char → Nat) (l1 l2 : List Char) :
    tokSum tc (l1 ++ l2) = tokSum tc l1 + tokSum tc l2 := by
  simp [tokSum]

theorem tokSum_concat (tc : Char → Nat) (l : List Char) (c : Char) :
    tokSum tc (l ++ [c]) = tokSum tc l + tc c := by
  simp [tokSum]

theorem headMeaning_nil : headMeaning [] := by
  intro c h; simp at h

theorem headMeaning_append {p : List Char} (hp : headMeaning p) (hne : p ≠ [])
    (l : List Char) : headMeaning (p ++ l) := by
  cases p with
  | nil => exact absurd rfl hne
  | cons a r =>
    intro c hc
    simp only [List.cons_append, List.head?_cons, Option.some.injEq] at hc
    subst hc
    exact hp a rfl

theorem headMeaning_singleton {c : Char} (h : ¬ NonMeaning c) : headMeaning [c] := by
  intro d hd; simp at hd; subst hd; exact h

theorem lastNonMeaning_concat {c : Char} (h : NonMeaning c) (l : List Char) :
    lastNonMeaning (l ++ [c]) := by
  intro d hd
  rw [List.getLast?_concat] at hd
  cases hd
  exact h

theorem newline_nonMeaning : NonMeaning '\n' := by decide

theorem mem_drop_one_append {α : Type} {l : List α} {p ck : α}
    (h : ck ∈ (l ++ [p]).drop 1) : ck ∈ l.drop 1 ∨ (l ≠ [] ∧ ck = p) := by
  cases l with
  | nil => simp at h
  | cons a r =>
    simp only [List.cons_append, List.drop_succ_cons, List.drop_zero] at h
    rcases List.mem_append.1 h with h | h
    · left; simpa using h
    · right; exact ⟨by simp, by simpa using h⟩

theorem flatten_finish (s : St) : (finish s).flatten = concatSt s := by
  rcases s with ⟨b, lc, tk, pv, o, cl⟩
  cases pv <;> cases b <;>
    simp [finish, concatSt, Option.getD]

theorem finish_dropLast_subset (s : St) :
    ∀ ck ∈ (finish s).dropLast, ck ∈ s.out := by
  rcases s with ⟨b, lc, tk, pv, o, cl⟩
  cases pv <;> cases b <;>
    simp [finish] <;>
    intro ck hck <;>
    first
      | exact hck
      | exact (List.dropLast_sublist _).subset hck

/-- The reachable-state invariant of the scan loop, relative to the previous
input character `prevc` (that is `content[i-1]`; `none` at position 0). -/
structure Inv (tc : Char → Nat) (prevc : Option Char) (s : St) : Prop where
  buf_of_prev : s.prev_chunk ≠ none → s.buf = []
  prev_ne : ∀ p, s.prev_chunk = some p → p ≠ []
  started : s.out ≠ [] → s.prev_chunk ≠ none ∨ s.buf ≠ []
  out_ne : ∀ ck ∈ s.out, ck ≠ []
  out_meaning : ∀ ck ∈ s.out.drop 1, headMeaning ck
  prev_meaning : s.out ≠ [] → ∀ p, s.prev_chunk = some p → headMeaning p
  buf_meaning : s.out ≠ [] ∨ s.prev_chunk ≠ none → headMeaning s.buf
  out_last : ∀ ck ∈ s.out, lastNonMeaning ck
  prev_last : ∀ p, s.prev_chunk = some p → lastNonMeaning p
  lines_eq : s.line_count = countNl s.buf
  toks_eq : s.token_count = tokSum tc s.buf
  buf_last : s.buf ≠ [] → s.buf.getLast? = prevc

theorem stepB_inv (tc : Char → Nat) (lpc tpc : Nat) (prevc : Option Char) (ch : Char)
    (pre b : List Char) (o : List (List Char)) (cl : List Char)
    (hpre : pre.getLast? = prevc)
    (h_out_ne : ∀ ck ∈ o, ck ≠ [])
    (h_out_meaning : ∀ ck ∈ o.drop 1, headMeaning ck)
    (h_out_last : ∀ ck ∈ o, lastNonMeaning ck)
    (h_buf_meaning : o ≠ [] → headMeaning b)
    (h_buf_last : b ≠ [] → b.getLast? = prevc)
    (h_start : o ≠ [] → b ≠ [] ∨ ¬ NonMeaning ch)
    (hk : Keeps pre (o.flatten ++ b))
    (hc : List.Sublist cl pre) :
    Inv tc (some ch)
      (stepB tc lpc tpc prevc ch ⟨b, countNl b, tokSum tc b, none, o, cl⟩) ∧
    Keeps (pre ++ [ch])
      (concatSt (stepB tc lpc tpc prevc ch ⟨b, countNl b, tokSum tc b, none, o, cl⟩)) ∧
    List.Sublist
      (stepB tc lpc tpc prevc ch ⟨b, countNl b, tokSum tc b, none, o, cl⟩).calls
      (pre ++ [ch]) := by
  have hcl' : List.Sublist cl (pre ++ [ch]) :=
    hc.trans (List.sublist_append_left pre [ch])
  by_cases hpar : ch = '\n' ∧ prevc = some '\n'
  · obtain ⟨hch, hpv⟩ := hpar
    subst hch
    have hs : stepB tc lpc tpc prevc '\n' ⟨b, countNl b, tokSum tc b, none, o, cl⟩ =
        flushCurrent ⟨b, countNl b, tokSum tc b, none, o, cl⟩ := by
      simp [stepB, hpv]
    rw [hs]
    have hpre' : pre.getLast? = some '\n' := hpre.trans hpv
    cases b with
    | nil =>
      have hfc : flushCurrent (⟨[], countNl [], tokSum tc [], none, o, cl⟩ : St) =
          ⟨[], countNl [], tokSum tc [], none, o, cl⟩ := by
        simp [flushCurrent]
      rw [hfc]
      refine ⟨⟨?_, ?_, ?_, ?_, ?_, ?_, ?_, ?_, ?_, ?_, ?_, ?_⟩, ?_, ?_⟩
      · intro h; rfl
      · intro p hp; exact absurd hp (by simp)
      · intro ho
        rcases h_start ho with hb | hnm
        · exact absurd rfl hb
        · exact absurd newline_nonMeaning hnm
      · exact h_out_ne
      · exact h_out_meaning
      · intro _ p hp; exact absurd hp (by simp)
      · intro _; exact headMeaning_nil
      · exact h_out_last
      · intro p hp; exact absurd hp (by simp)
      · rfl
      · rfl
      · intro h; exact absurd rfl h
      · have hk' : Keeps pre o.flatten := by simpa using hk
        simpa [concatSt] using Keeps.drop hpre' hk'
      · simpa using hcl'
    | cons b0 bs =>
      have hfc : flushCurrent
            (⟨b0 :: bs, countNl (b0 :: bs), tokSum tc (b0 :: bs), none, o, cl⟩ : St) =
          ⟨[], 0, 0, some (b0 :: bs), o, cl⟩ := by
        simp [flushCurrent]
      rw [hfc]
      refine ⟨⟨?_, ?_, ?_, ?_, ?_, ?_, ?_, ?_, ?_, ?_, ?_, ?_⟩, ?_, ?_⟩
      · intro _; rfl
      · intro p hp
        simp only [Option.some.injEq] at hp
        subst hp; simp
      · intro _; left; simp
      · exact h_out_ne
      · exact h_out_meaning
      · intro ho p hp
        simp only [Option.some.injEq] at hp
        subst hp
        exact h_buf_meaning ho
      · intro _; exact headMeaning_nil
      · exact h_out_last
      · intro p hp
        simp only [Option.some.injEq] at hp
        subst hp
        intro c hcl
        rw [h_buf_last (by simp), hpv] at hcl
        simp only [Option.some.injEq] at hcl
        subst hcl
        exact newline_nonMeaning
      · rfl
      · rfl
      · intro h; exact absurd rfl h
      · simpa [concatSt] using Keeps.drop hpre' hk
      · simpa using hcl'
  · have hs : stepB tc lpc tpc prevc ch ⟨b, countNl b, tokSum tc b, none, o, cl⟩ =
        (if lpc ≤ countNl (b ++ [ch]) ∧ tpc ≤ tokSum tc (b ++ [ch]) ∧
            (ch = '\n' ∨ ch ∈ YIELD_LATER_CHARS) then
          flushCurrent ⟨b ++ [ch], countNl (b ++ [ch]), tokSum tc (b ++ [ch]), none, o,
            cl ++ [ch]⟩
        else
          ⟨b ++ [ch], countNl (b ++ [ch]), tokSum tc (b ++ [ch]), none, o, cl ++ [ch]⟩) := by
      simp only [stepB, if_neg hpar, countNl_concat, tokSum_concat]
      by_cases hch : ch = '\n' <;> simp [hch]
    have hbm : o ≠ [] → headMeaning (b ++ [ch]) := by
      intro ho
      cases b with
      | nil =>
        rcases h_start ho with hb | hnm
        · exact absurd rfl hb
        · exact headMeaning_singleton hnm
      | cons b0 bs => exact headMeaning_append (h_buf_meaning ho) (by simp) _
    have hkeep : Keeps (pre ++ [ch]) (o.flatten ++ (b ++ [ch])) := by
      have := Keeps.keep ch hk
      simpa [List.append_assoc] using this
    rw [hs]
    by_cases hfl : lpc ≤ countNl (b ++ [ch]) ∧ tpc ≤ tokSum tc (b ++ [ch]) ∧
        (ch = '\n' ∨ ch ∈ YIELD_LATER_CHARS)
    · rw [if_pos hfl]
      have hnm : NonMeaning ch := by
        rcases hfl.2.2 with h | h
        · rw [h]; exact newline_nonMeaning
        · exact Or.inr h
      have hfc : flushCurrent
            (⟨b ++ [ch], countNl (b ++ [ch]), tokSum tc (b ++ [ch]), none, o,
              cl ++ [ch]⟩ : St) =
          ⟨[], 0, 0, some (b ++ [ch]), o, cl ++ [ch]⟩ := by
        simp [flushCurrent]
      rw [hfc]
      refine ⟨⟨?_, ?_, ?_, ?_, ?_, ?_, ?_, ?_, ?_, ?_, ?_, ?_⟩, ?_, ?_⟩
      · intro _; rfl
      · intro p hp
        simp only [Option.some.injEq] at hp
        subst hp; simp
      · intro _; left; simp
      · exact h_out_ne
      · exact h_out_meaning
      · intro ho p hp
        simp only [Option.some.injEq] at hp
        subst hp
        exact hbm ho
      · intro _; exact headMeaning_nil
      · exact h_out_last
      · intro p hp
        simp only [Option.some.injEq] at hp
        subst hp
        exact lastNonMeaning_concat hnm b
      · rfl
      · rfl
      · intro h; exact absurd rfl h
      · simpa [concatSt, List.append_assoc] using hkeep
      · exact hc.append (List.Sublist.refl [ch])
    · rw [if_neg hfl]
      refine ⟨⟨?_, ?_, ?_, ?_, ?_, ?_, ?_, ?_, ?_, ?_, ?_, ?_⟩, ?_, ?_⟩
      · intro h; exact absurd rfl h
      · intro p hp; exact absurd hp (by simp)
      · intro _; right; simp
      · exact h_out_ne
      · exact h_out_meaning
      · intro _ p hp; exact absurd hp (by simp)
      · intro h
        rcases h with ho | hpv
        · exact hbm ho
        · exact absurd rfl hpv
      · exact h_out_last
      · intro p hp; exact absurd hp (by simp)
      · rfl
      · rfl
      · intro _; simp [List.getLast?_concat]
      · simpa [concatSt, List.append_assoc] using hkeep
      · exact hc.append (List.Sublist.refl [ch])

theorem step_inv (tc : Char → Nat) (lpc tpc : Nat) (prevc : Option Char) (ch : Char)
    (pre : List Char) (s : St)
    (hpre : pre.getLast? = prevc)
    (hinv : Inv tc prevc s)
    (hk : Keeps pre (concatSt s))
    (hc : List.Sublist s.calls pre) :
    Inv tc (some ch) (step tc lpc tpc prevc ch s) ∧
    Keeps (pre ++ [ch]) (concatSt (step tc lpc tpc prevc ch s)) ∧
    List.Sublist (step tc lpc tpc prevc ch s).calls (pre ++ [ch]) := by
  obtain ⟨b, lc, tk, pv, o, cl⟩ := s
  have hlc : lc = countNl b := hinv.lines_eq
  have htk : tk = tokSum tc b := hinv.toks_eq
  subst hlc htk
  cases pv with
  | none =>
    have hs : step tc lpc tpc prevc ch ⟨b, countNl b, tokSum tc b, none, o, cl⟩ =
        stepB tc lpc tpc prevc ch ⟨b, countNl b, tokSum tc b, none, o, cl⟩ := rfl
    rw [hs]
    exact stepB_inv tc lpc tpc prevc ch pre b o cl hpre
      hinv.out_ne hinv.out_meaning hinv.out_last
      (fun ho => hinv.buf_meaning (Or.inl ho))
      hinv.buf_last
      (fun ho => Or.inl ((hinv.started ho).resolve_left (fun h => h rfl)))
      (by simpa [concatSt] using hk)
      hc
  | some p =>
    by_cases hb : b = []
    · subst hb
      have hpne : p ≠ [] := hinv.prev_ne p rfl
      by_cases hnm : NonMeaning ch
      · have hs : step tc lpc tpc prevc ch ⟨[], countNl [], tokSum tc [], some p, o, cl⟩ =
            ⟨[], countNl [], tokSum tc [], some (p ++ [ch]), o, cl⟩ := by
          simp [step, hnm]
        rw [hs]
        refine ⟨⟨?_, ?_, ?_, ?_, ?_, ?_, ?_, ?_, ?_, ?_, ?_, ?_⟩, ?_, ?_⟩
        · intro _; rfl
        · intro q hq
          simp only [Option.some.injEq] at hq
          subst hq; simp
        · intro _; left; simp
        · exact hinv.out_ne
        · exact hinv.out_meaning
        · intro ho q hq
          simp only [Option.some.injEq] at hq
          subst hq
          exact headMeaning_append (hinv.prev_meaning ho p rfl) hpne _
        · intro _; exact headMeaning_nil
        · exact hinv.out_last
        · intro q hq
          simp only [Option.some.injEq] at hq
          subst hq
          exact lastNonMeaning_concat hnm p
        · rfl
        · rfl
        · intro h; exact absurd rfl h
        · have hk' : Keeps pre (o.flatten ++ p) := by simpa [concatSt] using hk
          simpa [concatSt, List.append_assoc] using Keeps.keep ch hk'
        · exact hc.trans (List.sublist_append_left pre [ch])
      · have hs : step tc lpc tpc prevc ch ⟨[], countNl [], tokSum tc [], some p, o, cl⟩ =
            stepB tc lpc tpc prevc ch ⟨[], countNl [], tokSum tc [], none, o ++ [p], cl⟩ := by
          simp [step, hnm]
        rw [hs]
        apply stepB_inv tc lpc tpc prevc ch pre [] (o ++ [p]) cl hpre
        · intro ck hck
          rcases List.mem_append.1 hck with h | h
          · exact hinv.out_ne ck h
          · simp only [List.mem_singleton] at h
            rw [h]
            exact hpne
        · intro ck hck
          rcases mem_drop_one_append hck with h | ⟨ho, hckp⟩
          · exact hinv.out_meaning ck h
          · rw [hckp]
            exact hinv.prev_meaning ho p rfl
        · intro ck hck
          rcases List.mem_append.1 hck with h | h
          · exact hinv.out_last ck h
          · simp only [List.mem_singleton] at h
            rw [h]
            exact hinv.prev_last p rfl
        · intro _; exact headMeaning_nil
        · intro h; exact absurd rfl h
        · intro _; exact Or.inr hnm
        · simpa [concatSt] using hk
        · exact hc
    · exact absurd (hinv.buf_of_prev (by simp)) hb

theorem chunkLoop_inv (tc : Char → Nat) (lpc tpc : Nat) :
    ∀ (rest : List Char) (prevc : Option Char) (pre : List Char) (s : St),
      pre.getLast? = prevc → Inv tc prevc s → Keeps pre (concatSt s) →
      List.Sublist s.calls pre →
      Inv tc ((pre ++ rest).getLast?) (chunkLoop tc lpc tpc prevc rest s) ∧
      Keeps (pre ++ rest) (concatSt (chunkLoop tc lpc tpc prevc rest s)) ∧
      List.Sublist (chunkLoop tc lpc tpc prevc rest s).calls (pre ++ rest) := by
  intro rest
  induction rest with
  | nil =>
    intro prevc pre s hpre hinv hk hc
    simp only [chunkLoop, List.append_nil, hpre]
    exact ⟨hinv, hk, hc⟩
  | cons ch rest ih =>
    intro prevc pre s hpre hinv hk hc
    have hstep := step_inv tc lpc tpc prevc ch pre s hpre hinv hk hc
    have hloop := ih (some ch) (pre ++ [ch]) (step tc lpc tpc prevc ch s)
      (List.getLast?_concat pre) hstep.1 hstep.2.1 hstep.2.2
    have happ : (pre ++ [ch]) ++ rest = pre ++ ch :: rest := by simp
    rw [happ] at hloop
    rw [chunkLoop]
    exact hloop

theorem initSt_inv (tc : Char → Nat) : Inv tc none initSt := by
  refine ⟨?_, ?_, ?_, ?_, ?_, ?_, ?_, ?_, ?_, ?_, ?_, ?_⟩ <;>
    simp [initSt, headMeaning_nil, countNl, tokSum]

theorem chunkRun_inv (tc : Char → Nat) (lpc tpc : Nat) (content : List Char) :
    Inv tc content.getLast? (chunkRun tc lpc tpc content) ∧
    Keeps content (concatSt (chunkRun tc lpc tpc content)) ∧
    List.Sublist (chunkRun tc lpc tpc content).calls content := by
  have h := chunkLoop_inv tc lpc tpc content none [] initSt rfl (initSt_inv tc)
    (by simpa [concatSt, initSt] using Keeps.nil) (List.nil_sublist [])
  simpa [chunkRun] using h

theorem chunk_keeps (tc : Char → Nat) (lpc tpc : Nat) (content : List Char) :
    Keeps content ((chunk tc lpc tpc content).flatten) := by
  by_cases hc : content = []
  · subst hc
    simpa [chunk] using Keeps.nil
  · rw [chunk, if_neg hc, flatten_finish]
    exact (chunkRun_inv tc lpc tpc content).2.1

theorem Keeps.eq_of_noBlankLines {xs ys : List Char} (hk : Keeps xs ys)
    (hnb : NoBlankLines xs) : ys = xs := by
  induction hk with
  | nil => rfl
  | keep c hk ih =>
    have hnb' := (List.chain'_append.1 hnb).1
    rw [ih hnb']
  | drop hlast hk ih =>
    rcases List.chain'_append.1 hnb with ⟨h1, h2, h3⟩
    exact absurd ⟨rfl, rfl⟩ (h3 '\n' hlast '\n' rfl)

theorem finish_ne (tc : Char → Nat) (prevc : Option Char) (s : St)
    (hinv : Inv tc prevc s) : ∀ ck ∈ finish s, ck ≠ [] := by
  obtain ⟨b, lc, tk, pv, o, cl⟩ := s
  cases pv with
  | none =>
    cases b with
    | nil =>
      intro ck hck
      exact hinv.out_ne ck (by simpa [finish] using hck)
    | cons b0 bs =>
      intro ck hck
      rcases (by simpa [finish] using hck : ck ∈ o ∨ ck = b0 :: bs) with h | h
      · exact hinv.out_ne ck h
      · rw [h]; simp
  | some p =>
    have hb : b = [] := hinv.buf_of_prev (by simp)
    subst hb
    intro ck hck
    rcases (by simpa [finish] using hck : ck ∈ o ∨ ck = p) with h | h
    · exact hinv.out_ne ck h
    · rw [h]
      exact hinv.prev_ne p rfl

theorem finish_drop_meaning (tc : Char → Nat) (prevc : Option Char) (s : St)
    (hinv : Inv tc prevc s) : ∀ ck ∈ (finish s).drop 1, headMeaning ck := by
  obtain ⟨b, lc, tk, pv, o, cl⟩ := s
  cases pv with
  | none =>
    cases b with
    | nil =>
      intro ck hck
      exact hinv.out_meaning ck (by simpa [finish] using hck)
    | cons b0 bs =>
      intro ck hck
      rcases mem_drop_one_append (by simpa [finish] using hck) with h | ⟨ho, hckb⟩
      · exact hinv.out_meaning ck h
      · rw [hckb]
        exact hinv.buf_meaning (Or.inl ho)
  | some p =>
    have hb : b = [] := hinv.buf_of_prev (by simp)
    subst hb
    intro ck hck
    rcases mem_drop_one_append (by simpa [finish] using hck) with h | ⟨ho, hckp⟩
    · exact hinv.out_meaning ck h
    · rw [hckp]
      exact hinv.prev_meaning ho p rfl

theorem finish_dropLast_last (tc : Char → Nat) (prevc : Option Char) (s : St)
    (hinv : Inv tc prevc s) : ∀ ck ∈ (finish s).dropLast, lastNonMeaning ck :=
  fun ck hck => hinv.out_last ck (finish_dropLast_subset s ck hck)

/-- Exactly one chunk has been completed or begun. -/
def Started (s : St) : Prop := s.out ≠ [] ∨ s.prev_chunk ≠ none ∨ s.buf ≠ []

theorem flushCurrent_started (s : St) (h : Started s) : Started (flushCurrent s) := by
  unfold flushCurrent
  split
  · exact h
  · right; left; simp

theorem started_ite (c : Prop) [Decidable c] (s1 : St) (h : s1.buf ≠ []) :
    Started (if c then flushCurrent s1 else s1) := by
  split
  · exact flushCurrent_started s1 (Or.inr (Or.inr h))
  · exact Or.inr (Or.inr h)

theorem stepB_started (tc : Char → Nat) (lpc tpc : Nat) (prevc : Option Char)
    (ch : Char) (s : St) (h : Started s ∨ ¬(ch = '\n' ∧ prevc = some '\n')) :
    Started (stepB tc lpc tpc prevc ch s) := by
  unfold stepB
  split
  · rcases h with hs | hn
    · exact flushCurrent_started s hs
    · rename_i hpar
      exact absurd hpar hn
  · exact started_ite _ _ (by simp)

theorem step_started (tc : Char → Nat) (lpc tpc : Nat) (prevc : Option Char)
    (ch : Char) (s : St) (h : Started s ∨ ¬(ch = '\n' ∧ prevc = some '\n')) :
    Started (step tc lpc tpc prevc ch s) := by
  obtain ⟨b, lc, tk, pv, o, cl⟩ := s
  cases pv with
  | none => exact stepB_started tc lpc tpc prevc ch _ h
  | some p =>
    by_cases hb : b = []
    · subst hb
      by_cases hnm : NonMeaning ch
      · have hs : step tc lpc tpc prevc ch ⟨[], lc, tk, some p, o, cl⟩ =
            ⟨[], lc, tk, some (p ++ [ch]), o, cl⟩ := by
          simp [step, hnm]
        rw [hs]
        right; left; simp
      · have hs : step tc lpc tpc prevc ch ⟨[], lc, tk, some p, o, cl⟩ =
            stepB tc lpc tpc prevc ch ⟨[], lc, tk, none, o ++ [p], cl⟩ := by
          simp [step, hnm]
        rw [hs]
        apply stepB_started
        left; left; simp
    · have hs : step tc lpc tpc prevc ch ⟨b, lc, tk, some p, o, cl⟩ =
          stepB tc lpc tpc prevc ch ⟨b, lc, tk, some p, o, cl⟩ := by
        cases b with
        | nil => exact absurd rfl hb
        | cons b0 bs => simp [step]
      rw [hs]
      apply stepB_started
      left; right; left; simp

theorem chunkLoop_started (tc : Char → Nat) (lpc tpc : Nat) :
    ∀ (rest : List Char) (prevc : Option Char) (s : St),
      Started s → Started (chunkLoop tc lpc tpc prevc rest s) := by
  intro rest
  induction rest with
  | nil => intro prevc s h; exact h
  | cons ch rest ih =>
    intro prevc s h
    rw [chunkLoop]
    exact ih (some ch) _ (step_started tc lpc tpc prevc ch s (Or.inl h))

theorem finish_ne_nil (s : St) (h : Started s) : finish s ≠ [] := by
  obtain ⟨b, lc, tk, pv, o, cl⟩ := s
  cases pv <;> cases b <;> simp [finish, Started] at h ⊢ <;> tauto

/-- Modelled from the spec's words of the round-trip property (claim C1):
the input with each maximal run of blank-line newlines removed at paragraph
breaks, i.e. every newline whose immediately preceding input character is
also a newline is deleted. -/
def stripBlankGo : Option Char → List Char → List Char
  | _, [] => []
  | p, c :: r =>
    if c = '\n' ∧ p = some '\n' then stripBlankGo (some c) r
    else c :: stripBlankGo (some c) r

/-- Modelled from the spec's words: see `stripBlankGo`. -/
def stripBlankNewlines (l : List Char) : List Char := stripBlankGo none l

/-- Claim C1 is false as stated: for the input `"a\n\n\nb"` (one paragraph
break written with two blank-line newlines) the concatenation of the chunks
is `"a\n\nb"`, not the spec's `"a\nb"`: only the newline that triggers the
paragraph-break flush is dropped, the following blank-line newline is
absorbed into the pending chunk. -/
theorem C1_roundtrip_counterexample :
    (chunk (fun _ => 1) 100 100 "a\n\n\nb".toList).flatten ≠
      stripBlankNewlines ("a\n\n\nb".toList) := by decide

/-- Claim C1 (amended): for every input and positive thresholds,
concatenating all emitted chunks in order yields the input with a subset
of its blank-line newlines (newlines immediately preceded by a newline)
deleted; no other character is dropped or duplicated. -/
theorem C1_roundtrip_keeps (tc : Char → Nat) (lpc tpc : Nat) (content : List Char)
    (hl : 0 < lpc) (ht : 0 < tpc) :
    Keeps content ((chunk tc lpc tpc content).flatten) :=
  chunk_keeps tc lpc tpc content

theorem C1_roundtrip_keeps_witness :
    0 < 2 ∧ 0 < 2 ∧
      Keeps ("a\n\nb".toList) ((chunk (fun _ => 1) 2 2 "a\n\nb".toList).flatten) :=
  ⟨by decide, by decide,
    C1_roundtrip_keeps (fun _ => 1) 2 2 ("a\n\nb".toList) (by decide) (by decide)⟩

/-- Claim C3: for every input and positive thresholds, every chunk emitted
after the first begins with a meaning character: its first character is
neither whitespace nor a member of `YIELD_LATER_CHARS`. -/
theorem C3_nonmeaning_start (tc : Char → Nat) (lpc tpc : Nat) (content : List Char)
    (hl : 0 < lpc) (ht : 0 < tpc) :
    ∀ ck ∈ (chunk tc lpc tpc content).drop 1, ∀ c, ck.head? = some c →
      pyIsSpace c = false ∧ c ∉ YIELD_LATER_CHARS := by
  intro ck hck c hhc
  have hm : headMeaning ck := by
    by_cases hcn : content = []
    · subst hcn
      simp [chunk] at hck
    · rw [chunk, if_neg hcn] at hck
      exact finish_drop_meaning tc _ _ (chunkRun_inv tc lpc tpc content).1 ck hck
  have h2 := hm c hhc
  simpa [NonMeaning, not_or] using h2

theorem C3_nonmeaning_start_witness :
    0 < 1 ∧ 0 < 1 ∧
      (∀ ck ∈ (chunk (fun _ => 1) 1 1 "a\nb".toList).drop 1, ∀ c, ck.head? = some c →
        pyIsSpace c = false ∧ c ∉ YIELD_LATER_CHARS) :=
  ⟨by decide, by decide,
    C3_nonmeaning_start (fun _ => 1) 1 1 ("a\nb".toList) (by decide) (by decide)⟩

/-- Claim C4: for every input and all parameters, no emitted chunk is the
empty string: an empty buffer is never flushed or emitted. -/
theorem C4_no_empty_chunks (tc : Char → Nat) (lpc tpc : Nat) (content : List Char) :
    ∀ ck ∈ chunk tc lpc tpc content, ck ≠ [] := by
  by_cases hc : content = []
  · subst hc; simp [chunk]
  · rw [chunk, if_neg hc]
    exact finish_ne tc _ _ (chunkRun_inv tc lpc tpc content).1

theorem C4_no_empty_chunks_witness :
    ("a".toList ∈ chunk (fun _ => 1) 1 1 "a".toList) ∧ "a".toList ≠ [] :=
  ⟨by decide, C4_no_empty_chunks (fun _ => 1) 1 1 ("a".toList) ("a".toList) (by decide)⟩

/-- Claim C5: for every input containing no blank lines (no two consecutive
newline characters) and positive thresholds, concatenating all emitted
chunks in order reproduces the input exactly. -/
theorem C5_roundtrip_noblank (tc : Char → Nat) (lpc tpc : Nat) (content : List Char)
    (hl : 0 < lpc) (ht : 0 < tpc) (hnb : NoBlankLines content) :
    (chunk tc lpc tpc content).flatten = content :=
  (chunk_keeps tc lpc tpc content).eq_of_noBlankLines hnb

theorem C5_roundtrip_noblank_witness :
    0 < 1 ∧ 0 < 1 ∧ NoBlankLines ("a\nb\nc".toList) ∧
      (chunk (fun _ => 1) 1 1 "a\nb\nc".toList).flatten = "a\nb\nc".toList := by
  refine ⟨by decide, by decide, ?_, ?_⟩
  · simp [NoBlankLines, List.chain'_cons]
  · exact C5_roundtrip_noblank (fun _ => 1) 1 1 ("a\nb\nc".toList)
      (by decide) (by decide) (by simp [NoBlankLines, List.chain'_cons])

/-- Claim C7: for every input and positive thresholds, every emitted chunk
except the last ends with a non-meaning character (whitespace or a
deferred-punctuation character): the buffer is only ever flushed at a
newline or a `YIELD_LATER_CHARS` character, never purely on size at a
meaning character. -/
theorem C7_safe_end (tc : Char → Nat) (lpc tpc : Nat) (content : List Char)
    (hl : 0 < lpc) (ht : 0 < tpc) :
    ∀ ck ∈ (chunk tc lpc tpc content).dropLast, ∀ c, ck.getLast? = some c →
      pyIsSpace c = true ∨ c ∈ YIELD_LATER_CHARS := by
  intro ck hck c hlc
  by_cases hcn : content = []
  · subst hcn; simp [chunk] at hck
  · rw [chunk, if_neg hcn] at hck
    have h2 := finish_dropLast_last tc _ _ (chunkRun_inv tc lpc tpc content).1 ck hck c hlc
    simpa [NonMeaning] using h2

theorem C7_safe_end_witness :
    0 < 1 ∧ 0 < 1 ∧
      (∀ ck ∈ (chunk (fun _ => 1) 1 1 "a\nb\nc".toList).dropLast, ∀ c,
        ck.getLast? = some c → pyIsSpace c = true ∨ c ∈ YIELD_LATER_CHARS) :=
  ⟨by decide, by decide,
    C7_safe_end (fun _ => 1) 1 1 ("a\nb\nc".toList) (by decide) (by decide)⟩

/-- Claim C8 is false as stated: for the input `"a\n\nb"` the token counter
is called only 3 times (the discarded blank-line newline is never counted),
not once per input character. -/
theorem C8_calls_counterexample :
    (chunkCalls (fun _ => 1) 100 100 "a\n\nb".toList).length ≠
      ("a\n\nb".toList).length := by decide

/-- Claim C8 (amended): the token counter is called once per character
appended to the buffer, each call receiving a single character; the
sequence of characters passed to the counter is a subsequence of the input
(so there is at most one call per input character), with absorbed
characters and discarded blank-line newlines never counted. -/
theorem C8_calls_sublist (tc : Char → Nat) (lpc tpc : Nat) (content : List Char) :
    List.Sublist (chunkCalls tc lpc tpc content) content :=
  (chunkRun_inv tc lpc tpc content).2.2

/-- Claim C10: the output sequence is empty iff the input is empty: the
empty input yields no chunks, and every non-empty input yields at least
one chunk. -/
theorem C10_empty_iff (tc : Char → Nat) (lpc tpc : Nat) (content : List Char) :
    chunk tc lpc tpc content = [] ↔ content = [] := by
  constructor
  · intro h
    by_contra hc
    obtain ⟨c, rest, rfl⟩ := List.exists_cons_of_ne_nil hc
    rw [chunk, if_neg (by simp)] at h
    have hst : Started (chunkRun tc lpc tpc (c :: rest)) := by
      rw [chunkRun, chunkLoop]
      exact chunkLoop_started tc lpc tpc rest (some c) _
        (step_started tc lpc tpc none c initSt (Or.inr (by simp)))
    exact finish_ne_nil _ hst h
  · intro h
    rw [h]
    simp [chunk]

theorem stepB_acc_eq (tc : Char → Nat) (lpc tpc : Nat) (prevc : Option Char) (ch : Char)
    (b : List Char) (pv : Option (List Char)) (o : List (List Char)) (cl : List Char)
    (hnp : ¬(ch = '\n' ∧ prevc = some '\n')) :
    stepB tc lpc tpc prevc ch ⟨b, countNl b, tokSum tc b, pv, o, cl⟩ =
      (if lpc ≤ countNl (b ++ [ch]) ∧ tpc ≤ tokSum tc (b ++ [ch]) ∧
          (ch = '\n' ∨ ch ∈ YIELD_LATER_CHARS) then
        flushCurrent
          ⟨b ++ [ch], countNl (b ++ [ch]), tokSum tc (b ++ [ch]), pv, o, cl ++ [ch]⟩
      else
        ⟨b ++ [ch], countNl (b ++ [ch]), tokSum tc (b ++ [ch]), pv, o, cl ++ [ch]⟩) := by
  simp only [stepB, if_neg hnp, countNl_concat, tokSum_concat]
  by_cases hch : ch = '\n' <;> simp [hch]

/-- Budget invariant: every completed chunk (already emitted, or pending)
meets both thresholds, and the running counters reflect the buffer.  It is
preserved by every step that is not a paragraph-break force-flush. -/
structure BInv (tc : Char → Nat) (lpc tpc : Nat) (s : St) : Prop where
  out_budget : ∀ ck ∈ s.out, lpc ≤ countNl ck ∧ tpc ≤ tokSum tc ck
  prev_budget : ∀ p, s.prev_chunk = some p → lpc ≤ countNl p ∧ tpc ≤ tokSum tc p
  lines_eq : s.line_count = countNl s.buf
  toks_eq : s.token_count = tokSum tc s.buf

theorem stepB_budget (tc : Char → Nat) (lpc tpc : Nat) (prevc : Option Char) (ch : Char)
    (b : List Char) (pv : Option (List Char)) (o : List (List Char)) (cl : List Char)
    (hnp : ¬(ch = '\n' ∧ prevc = some '\n'))
    (h_out : ∀ ck ∈ o, lpc ≤ countNl ck ∧ tpc ≤ tokSum tc ck)
    (h_prev : ∀ p, pv = some p → lpc ≤ countNl p ∧ tpc ≤ tokSum tc p) :
    BInv tc lpc tpc (stepB tc lpc tpc prevc ch ⟨b, countNl b, tokSum tc b, pv, o, cl⟩) := by
  rw [stepB_acc_eq tc lpc tpc prevc ch b pv o cl hnp]
  by_cases hfl : lpc ≤ countNl (b ++ [ch]) ∧ tpc ≤ tokSum tc (b ++ [ch]) ∧
      (ch = '\n' ∨ ch ∈ YIELD_LATER_CHARS)
  · rw [if_pos hfl]
    have hfc : flushCurrent
          (⟨b ++ [ch], countNl (b ++ [ch]), tokSum tc (b ++ [ch]), pv, o,
            cl ++ [ch]⟩ : St) =
        ⟨[], 0, 0, some (b ++ [ch]), o, cl ++ [ch]⟩ := by
      simp [flushCurrent]
    rw [hfc]
    refine ⟨h_out, ?_, rfl, rfl⟩
    intro p hp
    simp only [Option.some.injEq] at hp
    rw [← hp]
    exact ⟨hfl.1, hfl.2.1⟩
  · rw [if_neg hfl]
    exact ⟨h_out, h_prev, rfl, rfl⟩

theorem step_budget (tc : Char → Nat) (lpc tpc : Nat) (prevc : Option Char) (ch : Char)
    (s : St) (hnp : ¬(ch = '\n' ∧ prevc = some '\n'))
    (hb : BInv tc lpc tpc s) : BInv tc lpc tpc (step tc lpc tpc prevc ch s) := by
  obtain ⟨b, lc, tk, pv, o, cl⟩ := s
  have hlc : lc = countNl b := hb.lines_eq
  have htk : tk = tokSum tc b := hb.toks_eq
  subst hlc htk
  cases pv with
  | none =>
    exact stepB_budget tc lpc tpc prevc ch b none o cl hnp hb.out_budget
      (fun p hp => by simp at hp)
  | some p =>
    by_cases hbuf : b = []
    · subst hbuf
      by_cases hnm : NonMeaning ch
      · have hs : step tc lpc tpc prevc ch ⟨[], countNl [], tokSum tc [], some p, o, cl⟩ =
            ⟨[], countNl [], tokSum tc [], some (p ++ [ch]), o, cl⟩ := by
          simp [step, hnm]
        rw [hs]
        refine ⟨hb.out_budget, ?_, rfl, rfl⟩
        intro q hq
        simp only [Option.some.injEq] at hq
        rw [← hq]
        have hp := hb.prev_budget p rfl
        rw [countNl_concat, tokSum_concat]
        omega
      · have hs : step tc lpc tpc prevc ch ⟨[], countNl [], tokSum tc [], some p, o, cl⟩ =
            stepB tc lpc tpc prevc ch ⟨[], countNl [], tokSum tc [], none, o ++ [p], cl⟩ := by
          simp [step, hnm]
        rw [hs]
        apply stepB_budget tc lpc tpc prevc ch [] none (o ++ [p]) cl hnp
        · intro ck hck
          rcases List.mem_append.1 hck with h | h
          · exact hb.out_budget ck h
          · simp only [List.mem_singleton] at h
            rw [h]
            exact hb.prev_budget p rfl
        · intro q hq; simp at hq
    · have hs : step tc lpc tpc prevc ch ⟨b, countNl b, tokSum tc b, some p, o, cl⟩ =
          stepB tc lpc tpc prevc ch ⟨b, countNl b, tokSum tc b, some p, o, cl⟩ := by
        cases b with
        | nil => exact absurd rfl hbuf
        | cons b0 bs => simp [step]
      rw [hs]
      exact stepB_budget tc lpc tpc prevc ch b (some p) o cl hnp hb.out_budget
        hb.prev_budget

theorem chunkLoop_budget (tc : Char → Nat) (lpc tpc : Nat) :
    ∀ (rest : List Char) (prevc : Option Char) (pre : List Char) (s : St),
      pre.getLast? = prevc → NoBlankLines (pre ++ rest) → BInv tc lpc tpc s →
      BInv tc lpc tpc (chunkLoop tc lpc tpc prevc rest s) := by
  intro rest
  induction rest with
  | nil => intro prevc pre s _ _ hb; exact hb
  | cons ch rest ih =>
    intro prevc pre s hpre hnb hb
    have hnp : ¬(ch = '\n' ∧ prevc = some '\n') := by
      rintro ⟨hch, hpv⟩
      subst hch
      rcases List.chain'_append.1 hnb with ⟨_, _, h3⟩
      exact absurd ⟨rfl, rfl⟩ (h3 '\n' (hpre.trans hpv) '\n' rfl)
    have hnb' : NoBlankLines ((pre ++ [ch]) ++ rest) := by
      simpa [List.append_assoc] using hnb
    rw [chunkLoop]
    exact ih (some ch) (pre ++ [ch]) _ (List.getLast?_concat pre) hnb'
      (step_budget tc lpc tpc prevc ch s hnp hb)

/-- Claim C2 is false as stated: for the input `"a\n\nb"` with
`lines_per_chunk = 2`, `tokens_per_chunk = 1` and the constant token counter
1, the first of the two emitted chunks is `"a\n"`, whose line count 1 is
below the threshold 2: a paragraph break force-flushes regardless of the
budgets. -/
theorem C2_budget_counterexample :
    ¬ (∀ ck ∈ (chunk (fun _ => 1) 2 1 "a\n\nb".toList).dropLast,
        2 ≤ countNl ck ∧ 1 ≤ tokSum (fun _ => 1) ck) := by decide

/-- Claim C2 (amended): for every input containing no blank lines (so that
no paragraph-break force-flush occurs) and positive thresholds, every chunk
except the last has at least `lines_per_chunk` newline characters and at
least `tokens_per_chunk` tokens (summed per character via the counter). -/
theorem C2_budget_noblank (tc : Char → Nat) (lpc tpc : Nat) (content : List Char)
    (hl : 0 < lpc) (ht : 0 < tpc) (hnb : NoBlankLines content) :
    ∀ ck ∈ (chunk tc lpc tpc content).dropLast,
      lpc ≤ countNl ck ∧ tpc ≤ tokSum tc ck := by
  intro ck hck
  by_cases hc : content = []
  · subst hc; simp [chunk] at hck
  · rw [chunk, if_neg hc] at hck
    have hb : BInv tc lpc tpc (chunkRun tc lpc tpc content) := by
      have h := chunkLoop_budget tc lpc tpc content none [] initSt rfl
        (by simpa using hnb)
        ⟨fun ck h => by simp [initSt] at h, fun p h => by simp [initSt] at h, rfl, rfl⟩
      simpa [chunkRun] using h
    exact hb.out_budget ck (finish_dropLast_subset _ ck hck)

theorem C2_budget_noblank_witness :
    0 < 1 ∧ 0 < 1 ∧ NoBlankLines ("a\nb\nc".toList) ∧
      (∀ ck ∈ (chunk (fun _ => 1) 1 1 "a\nb\nc".toList).dropLast,
        1 ≤ countNl ck ∧ 1 ≤ tokSum (fun _ => 1) ck) := by
  refine ⟨by decide, by decide, ?_, ?_⟩
  · simp [NoBlankLines, List.chain'_cons]
  · exact C2_budget_noblank (fun _ => 1) 1 1 ("a\nb\nc".toList)
      (by decide) (by decide) (by simp [NoBlankLines, List.chain'_cons])

theorem chunkLoop_noflush (tc : Char → Nat) (lpc tpc : Nat) :
    ∀ (rest pre : List Char),
      NoBlankLines (pre ++ rest) →
      (∀ i, i < (pre ++ rest).length →
        ¬(lpc ≤ countNl ((pre ++ rest).take (i + 1)) ∧
          tpc ≤ tokSum tc ((pre ++ rest).take (i + 1)))) →
      chunkLoop tc lpc tpc pre.getLast? rest
          ⟨pre, countNl pre, tokSum tc pre, none, [], pre⟩ =
        ⟨pre ++ rest, countNl (pre ++ rest), tokSum tc (pre ++ rest), none, [],
          pre ++ rest⟩ := by
  intro rest
  induction rest with
  | nil =>
    intro pre _ _
    simp [chunkLoop]
  | cons ch rest ih =>
    intro pre hnb hth
    have hnp : ¬(ch = '\n' ∧ pre.getLast? = some '\n') := by
      rintro ⟨hch, hpv⟩
      subst hch
      rcases List.chain'_append.1 hnb with ⟨_, _, h3⟩
      exact absurd ⟨rfl, rfl⟩ (h3 '\n' hpv '\n' rfl)
    have htake : (pre ++ ch :: rest).take (pre.length + 1) = pre ++ [ch] := by
      rw [show pre ++ ch :: rest = pre ++ ([ch] ++ rest) by simp]
      rw [show pre.length + 1 = (pre ++ [ch]).length by simp]
      rw [← List.append_assoc]
      exact List.take_left (pre ++ [ch]) rest
    have hfl : ¬(lpc ≤ countNl (pre ++ [ch]) ∧ tpc ≤ tokSum tc (pre ++ [ch]) ∧
        (ch = '\n' ∨ ch ∈ YIELD_LATER_CHARS)) := by
      intro hcon
      have hi := hth pre.length (by simp)
      rw [htake] at hi
      exact hi ⟨hcon.1, hcon.2.1⟩
    have hs : step tc lpc tpc pre.getLast? ch
          ⟨pre, countNl pre, tokSum tc pre, none, [], pre⟩ =
        ⟨pre ++ [ch], countNl (pre ++ [ch]), tokSum tc (pre ++ [ch]), none, [],
          pre ++ [ch]⟩ := by
      have h0 : step tc lpc tpc pre.getLast? ch
            ⟨pre, countNl pre, tokSum tc pre, none, [], pre⟩ =
          stepB tc lpc tpc pre.getLast? ch
            ⟨pre, countNl pre, tokSum tc pre, none, [], pre⟩ := rfl
      rw [h0, stepB_acc_eq tc lpc tpc pre.getLast? ch pre none [] pre hnp, if_neg hfl]
    rw [chunkLoop, hs]
    have happ : (pre ++ [ch]) ++ rest = pre ++ ch :: rest := by simp
    have hloop := ih (pre ++ [ch]) (by rwa [happ]) (by rwa [happ])
    rw [List.getLast?_concat] at hloop
    rw [hloop, happ]

/-- Claim C9: for every non-empty input with no blank lines, if at no point
of the scan do the running line count and token count simultaneously reach
both thresholds, then exactly one chunk is emitted and it is the whole
input. -/
theorem C9_single_chunk (tc : Char → Nat) (lpc tpc : Nat) (content : List Char)
    (hl : 0 < lpc) (ht : 0 < tpc) (hne : content ≠ []) (hnb : NoBlankLines content)
    (hth : ∀ i, i < content.length →
      ¬(lpc ≤ countNl (content.take (i + 1)) ∧
        tpc ≤ tokSum tc (content.take (i + 1)))) :
    chunk tc lpc tpc content = [content] := by
  have hrun : chunkRun tc lpc tpc content =
      ⟨content, countNl content, tokSum tc content, none, [], content⟩ := by
    have h := chunkLoop_noflush tc lpc tpc content [] (by simpa using hnb)
      (by simpa using hth)
    simpa [chunkRun, initSt, countNl, tokSum] using h
  rw [chunk, if_neg hne, hrun]
  obtain ⟨c, rest, rfl⟩ := List.exists_cons_of_ne_nil hne
  simp [finish]

theorem C9_single_chunk_witness :
    0 < 1 ∧ 0 < 10 ∧ "ab".toList ≠ [] ∧ NoBlankLines ("ab".toList) ∧
      (∀ i, i < ("ab".toList).length →
        ¬(1 ≤ countNl (("ab".toList).take (i + 1)) ∧
          10 ≤ tokSum (fun _ => 1) (("ab".toList).take (i + 1)))) ∧
      chunk (fun _ => 1) 1 10 "ab".toList = ["ab".toList] := by
  refine ⟨by decide, by decide, by decide, ?_, by decide, ?_⟩
  · simp [NoBlankLines, List.chain'_cons]
  · exact C9_single_chunk (fun _ => 1) 1 10 ("ab".toList) (by decide) (by decide)
      (by decide) (by simp [NoBlankLines, List.chain'_cons]) (by decide)

theorem chunkLoop_append_ne (tc : Char → Nat) (lpc tpc : Nat) :
    ∀ (l1 l2 : List Char) (prevc : Option Char) (s : St), l1 ≠ [] →
      chunkLoop tc lpc tpc prevc (l1 ++ l2) s =
        chunkLoop tc lpc tpc l1.getLast? l2 (chunkLoop tc lpc tpc prevc l1 s) := by
  intro l1
  induction l1 with
  | nil => intro _ _ _ h; exact absurd rfl h
  | cons c r ih =>
    intro l2 prevc s _
    cases r with
    | nil => rfl
    | cons d t =>
      rw [List.cons_append, chunkLoop,
        ih l2 (some c) (step tc lpc tpc prevc c s) (by simp),
        List.getLast?_cons_cons]
      rfl

/-- Claim C6 is false as stated: with the constant token counter 1 (which
assigns at least one token to each character), the first chunk is
`"Hello!\nHello!\n\n!\n"`, not `"Hello!\nHello!\n"`: the stray `"!"` left
after the blank line is absorbed into the trailing end of the first chunk,
not into the leading part of the following chunk. -/
theorem C6_scenario_counterexample :
    (chunk (fun _ => 1) 2 2 "Hello!\nHello!\n\n!\nHi!\n".toList).head? ≠
      some ("Hello!\nHello!\n".toList) := by decide

theorem step_plain (tc : Char → Nat) (lpc tpc : Nat) (prevc : Option Char) (ch : Char)
    (b b' : List Char) (lcv lcv' tkv : Nat) (o : List (List Char)) (cl cl' : List Char)
    (hnp : ¬(ch = '\n' ∧ prevc = some '\n'))
    (hlc : (if ch = '\n' then lcv + 1 else lcv) = lcv')
    (hb : b ++ [ch] = b') (hcl : cl ++ [ch] = cl')
    (hnf : ¬(lpc ≤ lcv' ∧ tpc ≤ tkv + tc ch ∧ (ch = '\n' ∨ ch ∈ YIELD_LATER_CHARS))) :
    step tc lpc tpc prevc ch ⟨b, lcv, tkv, none, o, cl⟩ =
      ⟨b', lcv', tkv + tc ch, none, o, cl'⟩ := by
  have h0 : step tc lpc tpc prevc ch ⟨b, lcv, tkv, none, o, cl⟩ =
      stepB tc lpc tpc prevc ch ⟨b, lcv, tkv, none, o, cl⟩ := rfl
  rw [h0]
  simp only [stepB, hlc, hb, hcl, if_neg hnp, if_neg hnf]

theorem step_flush (tc : Char → Nat) (lpc tpc : Nat) (prevc : Option Char) (ch : Char)
    (b b' : List Char) (lcv lcv' tkv : Nat) (o : List (List Char)) (cl cl' : List Char)
    (hnp : ¬(ch = '\n' ∧ prevc = some '\n'))
    (hlc : (if ch = '\n' then lcv + 1 else lcv) = lcv')
    (hb : b ++ [ch] = b') (hcl : cl ++ [ch] = cl')
    (hbne : b' ≠ [])
    (hf : lpc ≤ lcv' ∧ tpc ≤ tkv + tc ch ∧ (ch = '\n' ∨ ch ∈ YIELD_LATER_CHARS)) :
    step tc lpc tpc prevc ch ⟨b, lcv, tkv, none, o, cl⟩ =
      ⟨[], 0, 0, some b', o, cl'⟩ := by
  have h0 : step tc lpc tpc prevc ch ⟨b, lcv, tkv, none, o, cl⟩ =
      stepB tc lpc tpc prevc ch ⟨b, lcv, tkv, none, o, cl⟩ := rfl
  rw [h0]
  simp only [stepB, hlc, hb, hcl, if_neg hnp, if_pos hf, flushCurrent, if_neg hbne]

theorem step_absorb (tc : Char → Nat) (lpc tpc : Nat) (prevc : Option Char) (ch : Char)
    (p p' : List Char) (lcv tkv : Nat) (o : List (List Char)) (cl : List Char)
    (hnm : NonMeaning ch) (hp : p ++ [ch] = p') :
    step tc lpc tpc prevc ch ⟨[], lcv, tkv, some p, o, cl⟩ =
      ⟨[], lcv, tkv, some p', o, cl⟩ := by
  simp only [step, hp, if_pos rfl, if_pos hnm, if_true]

theorem step_yield (tc : Char → Nat) (lpc tpc : Nat) (prevc : Option Char) (ch : Char)
    (p : List Char) (lcv lcv' tkv : Nat) (o o' : List (List Char)) (cl cl' : List Char)
    (hnm : ¬ NonMeaning ch)
    (hnp : ¬(ch = '\n' ∧ prevc = some '\n'))
    (hlc : (if ch = '\n' then lcv + 1 else lcv) = lcv')
    (ho : o ++ [p] = o') (hcl : cl ++ [ch] = cl')
    (hnf : ¬(lpc ≤ lcv' ∧ tpc ≤ tkv + tc ch ∧ (ch = '\n' ∨ ch ∈ YIELD_LATER_CHARS))) :
    step tc lpc tpc prevc ch ⟨[], lcv, tkv, some p, o, cl⟩ =
      ⟨[ch], lcv', tkv + tc ch, none, o', cl'⟩ := by
  simp only [step, if_pos rfl, if_neg hnm, stepB, hlc, ho, hcl, if_neg hnp, if_neg hnf,
    List.nil_append, if_true]

/-- Claim C6 (amended): for the input `"Hello!\nHello!\n\n!\nHi!\n"` with
both thresholds 2, under any token counter assigning at least one token to
every character, exactly two chunks are emitted: the first chunk is
`"Hello!\nHello!\n\n!\n"` (the stray `"!"` left after the blank line is
absorbed into the trailing end of the first chunk, never emitted
standalone), and the second chunk is `"Hi!\n"`. -/
theorem C6_scenario (tc : Char → Nat) (h : ∀ c, 1 ≤ tc c) :
    chunk tc 2 2 ("Hello!\nHello!\n\n!\nHi!\n".toList) =
      ["Hello!\nHello!\n\n!\n".toList, "Hi!\n".toList] := by
  have hsum : 2 ≤ 0 + tc 'H' + tc 'e' + tc 'l' + tc 'l' + tc 'o' + tc '!' + tc '\n' + tc 'H' + tc 'e' + tc 'l' + tc 'l' + tc 'o' + tc '!' + tc '\n' := by
    have h1 := h 'H'
    have h2 := h 'e'
    omega
  rw [show ("Hello!\nHello!\n\n!\nHi!\n".toList) = ['H', 'e', 'l', 'l', 'o', '!', '\n', 'H', 'e', 'l', 'l', 'o', '!', '\n', '\n', '!', '\n', 'H', 'i', '!', '\n'] by decide]
  rw [show ("Hello!\nHello!\n\n!\n".toList) = ['H', 'e', 'l', 'l', 'o', '!', '\n', 'H', 'e', 'l', 'l', 'o', '!', '\n', '\n', '!', '\n'] by decide]
  rw [show ("Hi!\n".toList) = ['H', 'i', '!', '\n'] by decide]
  rw [chunk, if_neg (by decide), chunkRun]
  simp only [initSt]
  rw [chunkLoop, step_plain tc 2 2 none 'H'
    []
    ['H']
    0 0 (0) []
    []
    ['H']
    (by decide) rfl rfl rfl (fun hc => absurd hc.1 (by decide))]
  rw [chunkLoop, step_plain tc 2 2 (some 'H') 'e'
    ['H']
    ['H', 'e']
    0 0 (0 + tc 'H') []
    ['H']
    ['H', 'e']
    (by decide) rfl rfl rfl (fun hc => absurd hc.1 (by decide))]
  rw [chunkLoop, step_plain tc 2 2 (some 'e') 'l'
    ['H', 'e']
    ['H', 'e', 'l']
    0 0 (0 + tc 'H' + tc 'e') []
    ['H', 'e']
    ['H', 'e', 'l']
    (by decide) rfl rfl rfl (fun hc => absurd hc.1 (by decide))]
  rw [chunkLoop, step_plain tc 2 2 (some 'l') 'l'
    ['H', 'e', 'l']
    ['H', 'e', 'l', 'l']
    0 0 (0 + tc 'H' + tc 'e' + tc 'l') []
    ['H', 'e', 'l']
    ['H', 'e', 'l', 'l']
    (by decide) rfl rfl rfl (fun hc => absurd hc.1 (by decide))]
  rw [chunkLoop, step_plain tc 2 2 (some 'l') 'o'
    ['H', 'e', 'l', 'l']
    ['H', 'e', 'l', 'l', 'o']
    0 0 (0 + tc 'H' + tc 'e' + tc 'l' + tc 'l') []
    ['H', 'e', 'l', 'l']
    ['H', 'e', 'l', 'l', 'o']
    (by decide) rfl rfl rfl (fun hc => absurd hc.1 (by decide))]
  rw [chunkLoop, step_plain tc 2 2 (some 'o') '!'
    ['H', 'e', 'l', 'l', 'o']
    ['H', 'e', 'l', 'l', 'o', '!']
    0 0 (0 + tc 'H' + tc 'e' + tc 'l' + tc 'l' + tc 'o') []
    ['H', 'e', 'l', 'l', 'o']
    ['H', 'e', 'l', 'l', 'o', '!']
    (by decide) rfl rfl rfl (fun hc => absurd hc.1 (by decide))]
  rw [chunkLoop, step_plain tc 2 2 (some '!') '\n'
    ['H', 'e', 'l', 'l', 'o', '!']
    ['H', 'e', 'l', 'l', 'o', '!', '\n']
    0 1 (0 + tc 'H' + tc 'e' + tc 'l' + tc 'l' + tc 'o' + tc '!') []
    ['H', 'e', 'l', 'l', 'o', '!']
    ['H', 'e', 'l', 'l', 'o', '!', '\n']
    (by decide) rfl rfl rfl (fun hc => absurd hc.1 (by decide))]
  rw [chunkLoop, step_plain tc 2 2 (some '\n') 'H'
    ['H', 'e', 'l', 'l', 'o', '!', '\n']
    ['H', 'e', 'l', 'l', 'o', '!', '\n', 'H']
    1 1 (0 + tc 'H' + tc 'e' + tc 'l' + tc 'l' + tc 'o' + tc '!' + tc '\n') []
    ['H', 'e', 'l', 'l', 'o', '!', '\n']
    ['H', 'e', 'l', 'l', 'o', '!', '\n', 'H']
    (by decide) rfl rfl rfl (fun hc => absurd hc.1 (by decide))]
  rw [chunkLoop, step_plain tc 2 2 (some 'H') 'e'
    ['H', 'e', 'l', 'l', 'o', '!', '\n', 'H']
    ['H', 'e', 'l', 'l', 'o', '!', '\n', 'H', 'e']
    1 1 (0 + tc 'H' + tc 'e' + tc 'l' + tc 'l' + tc 'o' + tc '!' + tc '\n' + tc 'H') []
    ['H', 'e', 'l', 'l', 'o', '!', '\n', 'H']
    ['H', 'e', 'l', 'l', 'o', '!', '\n', 'H', 'e']
    (by decide) rfl rfl rfl (fun hc => absurd hc.1 (by decide))]
  rw [chunkLoop, step_plain tc 2 2 (some 'e') 'l'
    ['H', 'e', 'l', 'l', 'o', '!', '\n', 'H', 'e']
    ['H', 'e', 'l', 'l', 'o', '!', '\n', 'H', 'e', 'l']
    1 1 (0 + tc 'H' + tc 'e' + tc 'l' + tc 'l' + tc 'o' + tc '!' + tc '\n' + tc 'H' + tc 'e') []
    ['H', 'e', 'l', 'l', 'o', '!', '\n', 'H', 'e']
    ['H', 'e', 'l', 'l', 'o', '!', '\n', 'H', 'e', 'l']
    (by decide) rfl rfl rfl (fun hc => absurd hc.1 (by decide))]
  rw [chunkLoop, step_plain tc 2 2 (some 'l') 'l'
    ['H', 'e', 'l', 'l', 'o', '!', '\n', 'H', 'e', 'l']
    ['H', 'e', 'l', 'l', 'o', '!', '\n', 'H', 'e', 'l', 'l']
    1 1 (0 + tc 'H' + tc 'e' + tc 'l' + tc 'l' + tc 'o' + tc '!' + tc '\n' + tc 'H' + tc 'e' + tc 'l') []
    ['H', 'e', 'l', 'l', 'o', '!', '\n', 'H', 'e', 'l']
    ['H', 'e', 'l', 'l', 'o', '!', '\n', 'H', 'e', 'l', 'l']
    (by decide) rfl rfl rfl (fun hc => absurd hc.1 (by decide))]
  rw [chunkLoop, step_plain tc 2 2 (some 'l') 'o'
    ['H', 'e', 'l', 'l', 'o', '!', '\n', 'H', 'e', 'l', 'l']
    ['H', 'e', 'l', 'l', 'o', '!', '\n', 'H', 'e', 'l', 'l', 'o']
    1 1 (0 + tc 'H' + tc 'e' + tc 'l' + tc 'l' + tc 'o' + tc '!' + tc '\n' + tc 'H' + tc 'e' + tc 'l' + tc 'l') []
    ['H', 'e', 'l', 'l', 'o', '!', '\n', 'H', 'e', 'l', 'l']
    ['H', 'e', 'l', 'l', 'o', '!', '\n', 'H', 'e', 'l', 'l', 'o']
    (by decide) rfl rfl rfl (fun hc => absurd hc.1 (by decide))]
  rw [chunkLoop, step_plain tc 2 2 (some 'o') '!'
    ['H', 'e', 'l', 'l', 'o', '!', '\n', 'H', 'e', 'l', 'l', 'o']
    ['H', 'e', 'l', 'l', 'o', '!', '\n', 'H', 'e', 'l', 'l', 'o', '!']
    1 1 (0 + tc 'H' + tc 'e' + tc 'l' + tc 'l' + tc 'o' + tc '!' + tc '\n' + tc 'H' + tc 'e' + tc 'l' + tc 'l' + tc 'o') []
    ['H', 'e', 'l', 'l', 'o', '!', '\n', 'H', 'e', 'l', 'l', 'o']
    ['H', 'e', 'l', 'l', 'o', '!', '\n', 'H', 'e', 'l', 'l', 'o', '!']
    (by decide) rfl rfl rfl (fun hc => absurd hc.1 (by decide))]
  rw [chunkLoop, step_flush tc 2 2 (some '!') '\n'
    ['H', 'e', 'l', 'l', 'o', '!', '\n', 'H', 'e', 'l', 'l', 'o', '!']
    ['H', 'e', 'l', 'l', 'o', '!', '\n', 'H', 'e', 'l', 'l', 'o', '!', '\n']
    1 2 (0 + tc 'H' + tc 'e' + tc 'l' + tc 'l' + tc 'o' + tc '!' + tc '\n' + tc 'H' + tc 'e' + tc 'l' + tc 'l' + tc 'o' + tc '!') []
    ['H', 'e', 'l', 'l', 'o', '!', '\n', 'H', 'e', 'l', 'l', 'o', '!']
    ['H', 'e', 'l', 'l', 'o', '!', '\n', 'H', 'e', 'l', 'l', 'o', '!', '\n']
    (by decide) rfl rfl rfl (by decide) ⟨by decide, hsum, by decide⟩]
  rw [chunkLoop, step_absorb tc 2 2 (some '\n') '\n'
    ['H', 'e', 'l', 'l', 'o', '!', '\n', 'H', 'e', 'l', 'l', 'o', '!', '\n']
    ['H', 'e', 'l', 'l', 'o', '!', '\n', 'H', 'e', 'l', 'l', 'o', '!', '\n', '\n']
    0 (0) []
    ['H', 'e', 'l', 'l', 'o', '!', '\n', 'H', 'e', 'l', 'l', 'o', '!', '\n'] (by decide) rfl]
  rw [chunkLoop, step_absorb tc 2 2 (some '\n') '!'
    ['H', 'e', 'l', 'l', 'o', '!', '\n', 'H', 'e', 'l', 'l', 'o', '!', '\n', '\n']
    ['H', 'e', 'l', 'l', 'o', '!', '\n', 'H', 'e', 'l', 'l', 'o', '!', '\n', '\n', '!']
    0 (0) []
    ['H', 'e', 'l', 'l', 'o', '!', '\n', 'H', 'e', 'l', 'l', 'o', '!', '\n'] (by decide) rfl]
  rw [chunkLoop, step_absorb tc 2 2 (some '!') '\n'
    ['H', 'e', 'l', 'l', 'o', '!', '\n', 'H', 'e', 'l', 'l', 'o', '!', '\n', '\n', '!']
    ['H', 'e', 'l', 'l', 'o', '!', '\n', 'H', 'e', 'l', 'l', 'o', '!', '\n', '\n', '!', '\n']
    0 (0) []
    ['H', 'e', 'l', 'l', 'o', '!', '\n', 'H', 'e', 'l', 'l', 'o', '!', '\n'] (by decide) rfl]
  rw [chunkLoop, step_yield tc 2 2 (some '\n') 'H'
    ['H', 'e', 'l', 'l', 'o', '!', '\n', 'H', 'e', 'l', 'l', 'o', '!', '\n', '\n', '!', '\n']
    0 0 (0)
    []
    [['H', 'e', 'l', 'l', 'o', '!', '\n', 'H', 'e', 'l', 'l', 'o', '!', '\n', '\n', '!', '\n']]
    ['H', 'e', 'l', 'l', 'o', '!', '\n', 'H', 'e', 'l', 'l', 'o', '!', '\n']
    ['H', 'e', 'l', 'l', 'o', '!', '\n', 'H', 'e', 'l', 'l', 'o', '!', '\n', 'H']
    (by decide) (by decide) rfl rfl rfl (fun hc => absurd hc.1 (by decide))]
  rw [chunkLoop, step_plain tc 2 2 (some 'H') 'i'
    ['H']
    ['H', 'i']
    0 0 (0 + tc 'H') [['H', 'e', 'l', 'l', 'o', '!', '\n', 'H', 'e', 'l', 'l', 'o', '!', '\n', '\n', '!', '\n']]
    ['H', 'e', 'l', 'l', 'o', '!', '\n', 'H', 'e', 'l', 'l', 'o', '!', '\n', 'H']
    ['H', 'e', 'l', 'l', 'o', '!', '\n', 'H', 'e', 'l', 'l', 'o', '!', '\n', 'H', 'i']
    (by decide) rfl rfl rfl (fun hc => absurd hc.1 (by decide))]
  rw [chunkLoop, step_plain tc 2 2 (some 'i') '!'
    ['H', 'i']
    ['H', 'i', '!']
    0 0 (0 + tc 'H' + tc 'i') [['H', 'e', 'l', 'l', 'o', '!', '\n', 'H', 'e', 'l', 'l', 'o', '!', '\n', '\n', '!', '\n']]
    ['H', 'e', 'l', 'l', 'o', '!', '\n', 'H', 'e', 'l', 'l', 'o', '!', '\n', 'H', 'i']
    ['H', 'e', 'l', 'l', 'o', '!', '\n', 'H', 'e', 'l', 'l', 'o', '!', '\n', 'H', 'i', '!']
    (by decide) rfl rfl rfl (fun hc => absurd hc.1 (by decide))]
  rw [chunkLoop, step_plain tc 2 2 (some '!') '\n'
    ['H', 'i', '!']
    ['H', 'i', '!', '\n']
    0 1 (0 + tc 'H' + tc 'i' + tc '!') [['H', 'e', 'l', 'l', 'o', '!', '\n', 'H', 'e', 'l', 'l', 'o', '!', '\n', '\n', '!', '\n']]
    ['H', 'e', 'l', 'l', 'o', '!', '\n', 'H', 'e', 'l', 'l', 'o', '!', '\n', 'H', 'i', '!']
    ['H', 'e', 'l', 'l', 'o', '!', '\n', 'H', 'e', 'l', 'l', 'o', '!', '\n', 'H', 'i', '!', '\n']
    (by decide) rfl rfl rfl (fun hc => absurd hc.1 (by decide))]
  rw [chunkLoop]
  rfl

theorem C6_scenario_witness :
    (∀ c, 1 ≤ (fun _ => 1 : Char → Nat) c) ∧
      chunk (fun _ => 1) 2 2 ("Hello!\nHello!\n\n!\nHi!\n".toList) =
        ["Hello!\nHello!\n\n!\n".toList, "Hi!\n".toList] :=
  ⟨fun _ => le_refl 1, C6_scenario (fun _ => 1) (fun _ => le_refl 1)⟩

end Chunkle
